import Mathlib

/-!
Shallow embedding of the content-extraction core of `html2md`
(`extractor.go`): the HTML node model, the preprocessing pass
(`removeUnwantedElements`), the text metrics (`getTextContent`,
`getTextLength`, `getLinkTextLength`, `countElements`), the scorer
(`scoreNode`) and the candidate selector (`findBestCandidate`), together
with theorems settling the specification claims about them.

Strings of text are modelled as `List Char`; lengths are UTF-8 byte
lengths (Go's `len`); floating-point scores are modelled exactly as
rationals.
-/

namespace Html2md

/-- Go's `unicode.IsSpace`: the whitespace characters trimmed by
`strings.TrimSpace`. -/
def isSpace (c : Char) : Bool :=
  c = ' ' || c = '\t' || c = '\n' || c = '\x0b' || c = '\x0c' || c = '\r' ||
  c = '\u0085' || c = '\u00A0' || c = '\u1680' ||
  ('\u2000' ≤ c && c ≤ '\u200A') || c = '\u2028' || c = '\u2029' ||
  c = '\u202F' || c = '\u205F' || c = '\u3000'

/-- UTF-8 byte length of a character sequence (Go's `len` on a string). -/
def byteLen (l : List Char) : Nat := (l.map Char.utf8Size).sum

/-- Go's `strings.TrimSpace`: drop leading and trailing whitespace. -/
def trimChars (l : List Char) : List Char :=
  ((l.dropWhile isSpace).reverse.dropWhile isSpace).reverse

/-- Go's `strings.Contains`: `pat` occurs as a contiguous substring of
`hay`. -/
def containsSub : List Char → List Char → Bool
  | [], pat => pat.isEmpty
  | c :: t, pat => pat.isPrefixOf (c :: t) || containsSub t pat

/-- Node types of `golang.org/x/net/html`. -/
inductive NType where
  | errorNode
  | textNode
  | documentNode
  | elementNode
  | commentNode
  | doctypeNode
  | rawNode
  deriving DecidableEq, Repr

/-- An `html.Node`: node type, `Data` (tag name for elements, character
data for text nodes), attribute list (`Key`, `Val` pairs in document
order) and the ordered list of children.  Parent pointers are not
modelled; removal is modelled functionally. -/
inductive Node where
  | mk (type : NType) (data : String) (attr : List (String × String)) (children : List Node)

def Node.type : Node → NType
  | .mk t _ _ _ => t

def Node.data : Node → String
  | .mk _ d _ _ => d

def Node.attr : Node → List (String × String)
  | .mk _ _ a _ => a

def Node.children : Node → List Node
  | .mk _ _ _ c => c

/-- The `tagScores` map of `extractor.go`: base score per tag, `none` when the
tag is absent from the map. -/
def tagScores (tag : String) : Option ℚ :=
  if tag = "article" then some 25
  else if tag = "main" then some 25
  else if tag = "section" then some 10
  else if tag = "div" then some 5
  else if tag = "p" then some 3
  else if tag = "header" then some (-25)
  else if tag = "footer" then some (-25)
  else if tag = "nav" then some (-25)
  else if tag = "aside" then some (-25)
  else if tag = "form" then some (-25)
  else none

/-- The `unwantedTags` set of `extractor.go`. -/
def unwantedTags (tag : String) : Bool :=
  tag = "script" || tag = "style" || tag = "noscript" || tag = "iframe" || tag = "svg"

/-- The `candidateTags` set of `extractor.go`. -/
def candidateTags (tag : String) : Bool :=
  tag = "article" || tag = "main" || tag = "section" || tag = "div"

/-- Alternatives of `positivePattern` (a case-insensitive alternation). -/
def positiveKeywords : List String :=
  ["article", "body", "content", "entry", "main", "page", "post", "text",
   "blog", "story", "hentry"]

/-- Alternatives of `negativePattern` (a case-insensitive alternation). -/
def negativeKeywords : List String :=
  ["comment", "meta", "footer", "footnote", "sidebar", "widget", "banner",
   "advertis", "ad-", "ad_", "popup", "social", "share", "related",
   "recommend", "nav", "menu", "breadcrumb", "header"]

/-- A case-insensitive alternation of literal keywords matches a string
iff some keyword occurs as a substring of the lower-cased string. -/
def matchesAny (kws : List String) (s : String) : Bool :=
  kws.any (fun kw => containsSub (s.data.map Char.toLower) kw.data)

/-- The attribute-lookup loop of `getAttr`: value of the first attribute
with the given key, `""` when absent. -/
def lookupAttr : List (String × String) → String → String
  | [], _ => ""
  | (k, v) :: rest, key => if k = key then v else lookupAttr rest key

/-- Embedding of `getAttr` of `extractor.go`. -/
def getAttr (n : Node) (key : String) : String := lookupAttr n.attr key

mutual

/-- Embedding of `getTextContent` of `extractor.go`: concatenation of the data of
every text node of the subtree, in document order. -/
def getTextContent : Node → List Char
  | .mk ty d _ cs => (if ty = NType.textNode then d.data else []) ++ getTextContentList cs

def getTextContentList : List Node → List Char
  | [] => []
  | c :: cs => getTextContent c ++ getTextContentList cs

end

/-- Embedding of `getTextLength` of `extractor.go`: `len(strings.TrimSpace(getTextContent(n)))`. -/
def getTextLength (n : Node) : Nat := byteLen (trimChars (getTextContent n))

mutual

/-- Embedding of `getLinkTextLength` of `extractor.go`: total trimmed text length of
anchor (`<a>`) elements; the walk does not recurse into an anchor. -/
def getLinkTextLength : Node → Nat
  | .mk ty d a cs =>
    if ty = NType.elementNode ∧ d = "a" then getTextLength (.mk ty d a cs)
    else getLinkTextLengthList cs

def getLinkTextLengthList : List Node → Nat
  | [] => 0
  | c :: cs => getLinkTextLength c + getLinkTextLengthList cs

end

mutual

/-- Embedding of `countElements` of `extractor.go`: the walk counts every element of
the subtree rooted at `n` (including `n` itself) whose tag equals `tag`. -/
def countElements : Node → String → Nat
  | .mk ty d _ cs, tag =>
    (if ty = NType.elementNode ∧ d = tag then 1 else 0) + countElementsList cs tag

def countElementsList : List Node → String → Nat
  | [], _ => 0
  | c :: cs, tag => countElements c tag + countElementsList cs tag

end

/-- The base-score step of `scoreNode`: `if s, ok := tagScores[n.Data]; ok`. -/
def baseFromTag (tag : String) : ℚ :=
  match tagScores tag with
  | some s => s
  | none => 0

/-- Go's `strings.Count` for a single-character pattern. -/
def countChar (l : List Char) (c : Char) : Nat := l.count c

/-- Embedding of `scoreNode` of `extractor.go`, with the sequential accumulation of the
Go code made explicit; float64 arithmetic is modelled exactly in ℚ. -/
def scoreNode (n : Node) : ℚ :=
  let score1 := (0 : ℚ) + baseFromTag n.data
  let className := getAttr n "class"
  let id := getAttr n "id"
  let combined := className ++ " " ++ id
  let score2 := if matchesAny positiveKeywords combined then score1 + 25 else score1
  let score3 := if matchesAny negativeKeywords combined then score2 - 25 else score2
  let text := getTextContent n
  let textLen : Nat := byteLen (trimChars text)
  let linkTextLen : Nat := getLinkTextLength n
  let score4 :=
    if textLen > 0 then
      let density : ℚ := ((textLen : ℚ) - (linkTextLen : ℚ)) / (textLen : ℚ)
      score3 + density * (textLen : ℚ) / 100
    else score3
  let pCount := countElements n "p"
  let score5 := score4 + (pCount : ℚ) * 3
  let punctuationCount : Nat := min (countChar text ',' + countChar text '、') 10
  score5 + (punctuationCount : ℚ)

/-- The per-node step of the `findBestCandidate` walk: a candidate-tagged
element replaces the best seen so far when its score is strictly higher. -/
def candStep (st : Option Node × ℚ) (n : Node) : Option Node × ℚ :=
  if n.type = NType.elementNode ∧ candidateTags n.data then
    (let score := scoreNode n; if score > st.2 then (some n, score) else st)
  else st

mutual

/-- The recursive walk of `findBestCandidate`: pre-order traversal
threading the `(bestNode, bestScore)` state. -/
def fbcWalk : Node → Option Node × ℚ → Option Node × ℚ
  | .mk ty d a cs, st => fbcWalkList cs (candStep st (.mk ty d a cs))

def fbcWalkList : List Node → Option Node × ℚ → Option Node × ℚ
  | [], st => st
  | c :: cs, st => fbcWalkList cs (fbcWalk c st)

end

/-- Embedding of `findBestCandidate` of `extractor.go`: walk from the body with
`bestScore` initialized to −1000, then fall back to the body itself when
no candidate was found or the best score is negative. -/
def findBestCandidate (body : Node) : Node :=
  let r := fbcWalk body (none, -1000)
  match r.1 with
  | none => body
  | some best => if r.2 < 0 then body else best

/-- Embedding of `findBestCandidate` with its Go return type made explicit: the Go
function returns a `*html.Node`, where `some` models a non-nil pointer.
Both result branches (`body` and `bestNode`) are non-nil. -/
def findBestCandidateOpt (body : Node) : Option Node :=
  let r := fbcWalk body (none, -1000)
  match r.1 with
  | none => some body
  | some best => if r.2 < 0 then some body else some best

/-- The attribute loop of the `removeUnwantedElements` walk: `hidden`
(any value) marks the node; a `style` whose value, after removing spaces
and lower-casing, contains `display:none` marks the node. -/
def attrTriggersRemoval : List (String × String) → Bool
  | [] => false
  | (k, v) :: rest =>
    if k = "hidden" then true
    else if k = "style" ∧
        containsSub ((v.data.filter (fun c => c ≠ ' ')).map Char.toLower)
          ("display:none".data) then true
    else attrTriggersRemoval rest

/-- The per-node removal criterion of the `removeUnwantedElements` walk:
an element whose tag is unwanted, or that carries a triggering attribute. -/
def shouldRemove (n : Node) : Bool :=
  decide (n.type = NType.elementNode) && (unwantedTags n.data || attrTriggersRemoval n.attr)

mutual

/-- Removal of every marked node reachable without crossing a marked
node: the net effect on a subtree of the mark-then-detach pass of
`removeUnwantedElements`, for a subtree whose root is kept. -/
def pruneNode : Node → Node
  | .mk ty d a cs => .mk ty d a (pruneList cs)

def pruneList : List Node → List Node
  | [] => []
  | c :: cs => if shouldRemove c then pruneList cs else pruneNode c :: pruneList cs

end

/-- Embedding of `removeUnwantedElements` of `extractor.go`, modelled functionally:
the Go pass collects marked nodes without descending into a marked
subtree, then detaches each collected node from its parent.  When the
root itself is marked it is collected but has no parent, so nothing is
detached and the tree is unchanged; otherwise the net effect is the
recursive prune of the subtree. -/
def removeUnwantedElements (n : Node) : Node :=
  if shouldRemove n then n else pruneNode n

mutual

/-- Embedding of `findElement` of `extractor.go`: the first element with the given tag
in pre-order document order. -/
def findElement : Node → String → Option Node
  | .mk ty d a cs, tag =>
    if ty = NType.elementNode ∧ d = tag then some (.mk ty d a cs)
    else findElementList cs tag

def findElementList : List Node → String → Option Node
  | [], _ => none
  | c :: cs, tag =>
    match findElement c tag with
    | some found => some found
    | none => findElementList cs tag

end

/-- Embedding of `ExtractContent` of `extractor.go`, parameterized by the external
HTML parser (`html.Parse`, `none` modelling a parse error) and renderer
(`html.Render`).  The body-tag test, preprocessing, body lookup and
candidate selection are the code's own. -/
def ExtractContent (parse : String → Option Node) (render : Node → String)
    (rawHTML : String) : String :=
  if ¬ (containsSub (rawHTML.data.map Char.toLower) ("<body".data) = true) then rawHTML
  else
    match parse rawHTML with
    | none => rawHTML
    | some doc =>
      let doc2 := removeUnwantedElements doc
      match findElement doc2 "body" with
      | none => rawHTML
      | some body =>
        match findBestCandidateOpt body with
        | none => rawHTML
        | some candidate => render candidate

mutual

/-- Pre-order listing of the nodes of a subtree (each node before its
children, children in document order): the visiting order of the
recursive walks of `extractor.go`. -/
def preorder : Node → List Node
  | .mk ty d a cs => .mk ty d a cs :: preorderList cs

def preorderList : List Node → List Node
  | [] => []
  | c :: cs => preorder c ++ preorderList cs

end

/-- Candidate-eligibility test used by the selector walk. -/
def isCand (n : Node) : Bool :=
  decide (n.type = NType.elementNode) && candidateTags n.data

/-- The candidate-tagged elements of the subtree of `body`, in pre-order. -/
def candidates (body : Node) : List Node := (preorder body).filter isCand

/-- Best-score accumulator over a list of nodes. -/
def foldMax (s : ℚ) (l : List Node) : ℚ :=
  l.foldl (fun a c => max a (scoreNode c)) s

/-- The update performed by the selector walk at a candidate element:
replace the best seen so far when the score is strictly higher. -/
def updStep (st : Option Node × ℚ) (n : Node) : Option Node × ℚ :=
  if scoreNode n > st.2 then (some n, scoreNode n) else st

/-- The maximal score over the candidate elements of the subtree of
`body` (`none` when there is no candidate). -/
def maxCandScore (body : Node) : Option ℚ :=
  match candidates body with
  | [] => none
  | c :: t => some (foldMax (scoreNode c) t)

/-- Spec-side component: the base tag score from the tag-score mapping,
0 if the tag is absent. -/
def specBaseScore (n : Node) : ℚ :=
  match tagScores n.data with
  | some s => s
  | none => 0

/-- Spec-side component: +25 if the positive pattern matches
`class ++ " " ++ id`, −25 if the negative pattern matches it; both may
fire and net to 0. -/
def specPatternScore (n : Node) : ℚ :=
  let combined := getAttr n "class" ++ " " ++ getAttr n "id"
  (if matchesAny positiveKeywords combined then (25 : ℚ) else 0) +
    (if matchesAny negativeKeywords combined then (-25 : ℚ) else 0)

/-- Spec-side component: with `T = textLength(n)` and
`L = linkTextLength(n)`, the contribution `((T − L) / T) * T / 100` when
`T > 0` and 0 when `T = 0`. -/
def specDensityScore (n : Node) : ℚ :=
  let T := getTextLength n
  let L := getLinkTextLength n
  if 0 < T then (((T : ℚ) - (L : ℚ)) / (T : ℚ)) * (T : ℚ) / 100 else 0

/-- Spec-side component: `3 * countElements(n, "p")`. -/
def specParagraphBonus (n : Node) : ℚ := 3 * (countElements n "p" : ℚ)

/-- Spec-side component: the count of `,` plus the count of `、` in
`textContent(n)`, capped at 10. -/
def specPunctuationBonus (n : Node) : ℚ :=
  ((min (countChar (getTextContent n) ',' + countChar (getTextContent n) '、') 10 : Nat) : ℚ)

/-- A concrete example body holding two identically-scoring `div`
candidates, used to witness the selector claims. -/
def exBody : Node :=
  Node.mk NType.elementNode "body" []
    [Node.mk NType.elementNode "div" [] [], Node.mk NType.elementNode "div" [] []]

/-- A `div` carrying `class="nav"`: its negative-pattern match drives its
score to 5 − 25 = −20. -/
def negDiv : Node := Node.mk NType.elementNode "div" [("class", "nav")] []

/-- A concrete body holding two identical negative-scoring `div`
candidates with tied maximal scores. -/
def exNegBody : Node := Node.mk NType.elementNode "body" [] [negDiv, negDiv]

/-- Test whether a node is an element with the given tag. -/
def elemTagPred (tag : String) (m : Node) : Bool :=
  decide (m.type = NType.elementNode ∧ m.data = tag)

/-- Spec-side count, following the claim's words: the number of
descendant elements of `n` (nested at any depth, excluding `n` itself)
whose tag equals `tag`. -/
def specDescendantCount (n : Node) (tag : String) : Nat :=
  ((preorderList n.children).filter (elemTagPred tag)).length

mutual

/-- Mutual induction principle for `Node` and lists of nodes. -/
def nodeIndP (P : Node → Prop) (Q : List Node → Prop)
    (hmk : ∀ ty d a cs, Q cs → P (.mk ty d a cs))
    (hnil : Q []) (hcons : ∀ c cs, P c → Q cs → Q (c :: cs)) :
    ∀ n, P n
  | .mk ty d a cs => hmk ty d a cs (nodeIndQ P Q hmk hnil hcons cs)

/-- Mutual induction principle for lists of nodes. -/
def nodeIndQ (P : Node → Prop) (Q : List Node → Prop)
    (hmk : ∀ ty d a cs, Q cs → P (.mk ty d a cs))
    (hnil : Q []) (hcons : ∀ c cs, P c → Q cs → Q (c :: cs)) :
    ∀ cs, Q cs
  | [] => hnil
  | c :: cs =>
    hcons c cs (nodeIndP P Q hmk hnil hcons c) (nodeIndQ P Q hmk hnil hcons cs)

end

section Lemmas

/-- Pruning a node does not change its type, tag or attributes, so it
does not change whether the node matches a removal criterion. -/
theorem shouldRemove_pruneNode (n : Node) : shouldRemove (pruneNode n) = shouldRemove n := by
  cases n
  rfl

/-- The recursive prune is idempotent: a pruned subtree contains no
marked node below its root, so pruning it again changes nothing. -/
theorem pruneNode_idem (n : Node) : pruneNode (pruneNode n) = pruneNode n := by
  refine nodeIndP (fun n => pruneNode (pruneNode n) = pruneNode n)
    (fun cs => pruneList (pruneList cs) = pruneList cs) ?_ ?_ ?_ n
  · intro ty d a cs hq
    simp [pruneNode, hq]
  · rfl
  · intro c cs hc hcs
    by_cases h : shouldRemove c = true
    · simp [pruneList, h, hcs]
    · simp [pruneList, h, shouldRemove_pruneNode, hc, hcs]

theorem byteLen_append (s t : List Char) : byteLen (s ++ t) = byteLen s + byteLen t := by
  simp [byteLen]

theorem byteLen_reverse (s : List Char) : byteLen s.reverse = byteLen s := by
  simp [byteLen, List.sum_reverse]

theorem byteLen_dropWhile_le (p : Char → Bool) (l : List Char) :
    byteLen (l.dropWhile p) ≤ byteLen l := by
  conv_rhs => rw [← List.takeWhile_append_dropWhile p l]
  rw [byteLen_append]
  omega

/-- A string all of whose characters are whitespace trims to nothing. -/
theorem trimChars_eq_nil_of_all {l : List Char} (h : ∀ c ∈ l, isSpace c = true) :
    trimChars l = [] := by
  unfold trimChars
  rw [List.dropWhile_eq_nil_iff.mpr h]
  rfl

/-- Right-trimming bounds full trimming: the trimmed length of `t` is at
most the length of `t` with only its trailing whitespace removed. -/
theorem trimLen_le_rightTrim (t : List Char) :
    byteLen (trimChars t) ≤ byteLen (t.reverse.dropWhile isSpace) := by
  unfold trimChars
  rw [byteLen_reverse]
  have hsplit : t.reverse =
      (t.dropWhile isSpace).reverse ++ (t.takeWhile isSpace).reverse := by
    rw [← List.reverse_append, List.takeWhile_append_dropWhile]
  rw [hsplit, List.dropWhile_append]
  split_ifs with h
  · simp only [List.isEmpty_iff] at h
    rw [h]
    simp [byteLen]
  · rw [byteLen_append]
    omega

/-- Superadditivity of trimmed length over concatenation: trimming the
concatenation removes at most the leading whitespace of the left part
and the trailing whitespace of the right part. -/
theorem trimLen_append (s t : List Char) :
    byteLen (trimChars s) + byteLen (trimChars t) ≤ byteLen (trimChars (s ++ t)) := by
  rcases hs : s.dropWhile isSpace with _ | ⟨s₁, ss⟩
  · have hall : ∀ c ∈ s, isSpace c = true := List.dropWhile_eq_nil_iff.mp hs
    have h1 : trimChars s = [] := trimChars_eq_nil_of_all hall
    have h2 : trimChars (s ++ t) = trimChars t := by
      unfold trimChars
      rw [List.dropWhile_append, hs]
      rfl
    rw [h1, h2]
    simp [byteLen]
  · have hmain : trimChars (s ++ t) =
        (((s₁ :: ss) ++ t).reverse.dropWhile isSpace).reverse := by
      unfold trimChars
      rw [List.dropWhile_append, hs]
      rfl
    have htrims : trimChars s = ((s₁ :: ss).reverse.dropWhile isSpace).reverse := by
      unfold trimChars
      rw [hs]
    rcases ht : t.reverse.dropWhile isSpace with _ | ⟨t₁, ts⟩
    · have hallr : ∀ c ∈ t.reverse, isSpace c = true := List.dropWhile_eq_nil_iff.mp ht
      have hall : ∀ c ∈ t, isSpace c = true := by
        intro c hc
        exact hallr c (List.mem_reverse.mpr hc)
      have h1 : trimChars t = [] := trimChars_eq_nil_of_all hall
      have h2 : trimChars (s ++ t) = trimChars s := by
        rw [hmain, htrims, List.reverse_append, List.dropWhile_append, ht]
        rfl
      rw [h1, h2]
      simp [byteLen]
    · have h2 : trimChars (s ++ t) = (s₁ :: ss) ++ (t₁ :: ts).reverse := by
        rw [hmain, List.reverse_append, List.dropWhile_append, ht]
        simp
      have hs_le : byteLen (trimChars s) ≤ byteLen (s₁ :: ss) := by
        rw [htrims, byteLen_reverse]
        calc byteLen ((s₁ :: ss).reverse.dropWhile isSpace)
            ≤ byteLen (s₁ :: ss).reverse := byteLen_dropWhile_le _ _
          _ = byteLen (s₁ :: ss) := byteLen_reverse _
      have ht_le : byteLen (trimChars t) ≤ byteLen (t₁ :: ts) := by
        calc byteLen (trimChars t) ≤ byteLen (t.reverse.dropWhile isSpace) :=
              trimLen_le_rightTrim t
          _ = byteLen (t₁ :: ts) := by rw [ht]
      rw [h2, byteLen_append, byteLen_reverse]
      omega

/-- Shared core of C7, proved by mutual induction over the tree: the
summed trimmed anchor text length never exceeds the trimmed total text
length. -/
theorem linkLe_aux :
    ∀ n : Node, getLinkTextLength n ≤ byteLen (trimChars (getTextContent n)) := by
  refine nodeIndP _
    (fun cs => getLinkTextLengthList cs ≤ byteLen (trimChars (getTextContentList cs))) ?_ ?_ ?_
  · intro ty d a cs hq
    by_cases h : ty = NType.elementNode ∧ d = "a"
    · simp [getLinkTextLength, h, getTextLength]
    · have h1 : getLinkTextLength (.mk ty d a cs) = getLinkTextLengthList cs := by
        simp [getLinkTextLength, h]
      have h2 : getTextContent (.mk ty d a cs) =
          (if ty = NType.textNode then d.data else []) ++ getTextContentList cs := rfl
      rw [h1, h2]
      calc getLinkTextLengthList cs ≤ byteLen (trimChars (getTextContentList cs)) := hq
        _ ≤ byteLen (trimChars ((if ty = NType.textNode then d.data else []))) +
              byteLen (trimChars (getTextContentList cs)) := by omega
        _ ≤ _ := trimLen_append _ _
  · simp [getLinkTextLengthList, getTextContentList]
  · intro c cs hc hcs
    have h2 : getTextContentList (c :: cs) = getTextContent c ++ getTextContentList cs := rfl
    rw [h2]
    calc getLinkTextLengthList (c :: cs)
        = getLinkTextLength c + getLinkTextLengthList cs := rfl
      _ ≤ byteLen (trimChars (getTextContent c)) +
            byteLen (trimChars (getTextContentList cs)) := by
          exact Nat.add_le_add hc hcs
      _ ≤ _ := trimLen_append _ _

/-- Decomposition of the sequential accumulation of `scoreNode` into the
five independent score components. -/
theorem scoreNode_decomp (n : Node) :
    scoreNode n = specBaseScore n + specPatternScore n + specDensityScore n +
      specParagraphBonus n + specPunctuationBonus n := by
  simp only [scoreNode, specBaseScore, specPatternScore, specDensityScore,
    specParagraphBonus, specPunctuationBonus, baseFromTag, getTextLength, gt_iff_lt]
  split_ifs <;> ring

/-- Every tag score of the map is at least −25. -/
theorem tagScores_ge {t : String} {q : ℚ} (h : tagScores t = some q) : -25 ≤ q := by
  unfold tagScores at h
  split_ifs at h <;> simp_all <;> linarith

theorem specBaseScore_ge (n : Node) : (-25 : ℚ) ≤ specBaseScore n := by
  unfold specBaseScore
  rcases h : tagScores n.data with _ | q
  · norm_num
  · exact tagScores_ge h

theorem specPatternScore_ge (n : Node) : (-25 : ℚ) ≤ specPatternScore n := by
  simp only [specPatternScore]
  split_ifs <;> norm_num

theorem specDensityScore_nonneg (n : Node) : 0 ≤ specDensityScore n := by
  simp only [specDensityScore]
  split_ifs with h
  · have hL : getLinkTextLength n ≤ getTextLength n := linkLe_aux n
    have hT : (0 : ℚ) < (getTextLength n : ℚ) := by exact_mod_cast h
    have h1 : (0 : ℚ) ≤ (getTextLength n : ℚ) - (getLinkTextLength n : ℚ) := by
      have : ((getLinkTextLength n : ℚ)) ≤ (getTextLength n : ℚ) := by exact_mod_cast hL
      linarith
    have h2 := div_nonneg (mul_nonneg (div_nonneg h1 hT.le) hT.le) (by norm_num : (0:ℚ) ≤ 100)
    simpa using h2
  · exact le_refl _

theorem specParagraphBonus_nonneg (n : Node) : 0 ≤ specParagraphBonus n := by
  unfold specParagraphBonus
  positivity

theorem specPunctuationBonus_nonneg (n : Node) : 0 ≤ specPunctuationBonus n := by
  unfold specPunctuationBonus
  positivity

/-- Every node scores at least −50, in particular strictly above the
−1000 sentinel of the selector. -/
theorem scoreNode_ge (n : Node) : (-50 : ℚ) ≤ scoreNode n := by
  rw [scoreNode_decomp]
  have h1 := specBaseScore_ge n
  have h2 := specPatternScore_ge n
  have h3 := specDensityScore_nonneg n
  have h4 := specParagraphBonus_nonneg n
  have h5 := specPunctuationBonus_nonneg n
  linarith

/-- The walk step is the identity on non-candidates and the strict-max
update on candidates. -/
theorem candStep_eq (st : Option Node × ℚ) (n : Node) :
    candStep st n = if isCand n then updStep st n else st := by
  by_cases h1 : n.type = NType.elementNode
  · by_cases h2 : candidateTags n.data = true
    · simp [candStep, updStep, isCand, h1, h2]
    · simp [candStep, isCand, h1, h2]
  · simp [candStep, isCand, h1]

/-- Folding the walk step over a list is folding the update over its
candidate sublist. -/
theorem foldl_candStep_filter (l : List Node) (st : Option Node × ℚ) :
    l.foldl candStep st = (l.filter isCand).foldl updStep st := by
  induction l generalizing st with
  | nil => rfl
  | cons c cs ih =>
    rw [List.foldl_cons, List.filter_cons, candStep_eq]
    by_cases h : isCand c = true
    · simp only [h, if_true, List.foldl_cons]
      exact ih _
    · simp only [h, if_false]
      exact ih _

/-- The recursive walk of the selector is the fold of the walk step over
the pre-order listing. -/
theorem fbcWalk_eq_foldl (n : Node) : ∀ st, fbcWalk n st = (preorder n).foldl candStep st := by
  refine nodeIndP (fun n => ∀ st, fbcWalk n st = (preorder n).foldl candStep st)
    (fun cs => ∀ st, fbcWalkList cs st = (preorderList cs).foldl candStep st) ?_ ?_ ?_ n
  · intro ty d a cs hq st
    simp [fbcWalk, preorder, hq]
  · intro st
    rfl
  · intro c cs hc hcs st
    simp [fbcWalkList, preorderList, List.foldl_append, hc, hcs]

/-- The selector walk over a body is the update fold over its candidate
list. -/
theorem fbcWalk_candidates (body : Node) (st : Option Node × ℚ) :
    fbcWalk body st = (candidates body).foldl updStep st := by
  rw [fbcWalk_eq_foldl, foldl_candStep_filter]
  rfl

theorem foldMax_cons (s : ℚ) (c : Node) (l : List Node) :
    foldMax s (c :: l) = foldMax (max s (scoreNode c)) l := rfl

theorem le_foldMax (s : ℚ) (l : List Node) : s ≤ foldMax s l := by
  induction l generalizing s with
  | nil => exact le_refl _
  | cons c cs ih => exact le_trans (le_max_left _ _) (ih _)

theorem foldMax_of_mem {c : Node} {l : List Node} (h : c ∈ l) (s : ℚ) :
    scoreNode c ≤ foldMax s l := by
  induction l generalizing s with
  | nil => cases h
  | cons c₀ cs ih =>
    rw [foldMax_cons]
    rcases List.mem_cons.mp h with h1 | h2
    · subst h1
      exact le_trans (le_max_right _ _) (le_foldMax _ _)
    · exact ih h2 _

theorem foldMax_all_le {l : List Node} {s : ℚ} (h : ∀ c ∈ l, scoreNode c ≤ s) :
    foldMax s l = s := by
  induction l with
  | nil => rfl
  | cons c cs ih =>
    rw [foldMax_cons, max_eq_left (h c (List.mem_cons_self c cs))]
    exact ih fun c' hc' => h c' (List.mem_cons_of_mem _ hc')

theorem foldMax_eq_or (l : List Node) :
    ∀ s : ℚ, foldMax s l = s ∨ ∃ c ∈ l, foldMax s l = scoreNode c := by
  induction l with
  | nil =>
    intro s
    exact Or.inl rfl
  | cons c cs ih =>
    intro s
    rw [foldMax_cons]
    rcases ih (max s (scoreNode c)) with h | ⟨c', hc', he⟩
    · by_cases hcs : scoreNode c ≤ s
      · exact Or.inl (by rw [h, max_eq_left hcs])
      · exact Or.inr ⟨c, List.mem_cons_self c cs,
          by rw [h, max_eq_right (le_of_not_le hcs)]⟩
    · exact Or.inr ⟨c', List.mem_cons_of_mem _ hc', he⟩

theorem updFold_snd (l : List Node) :
    ∀ (b₀ : Option Node) (s₀ : ℚ), (l.foldl updStep (b₀, s₀)).2 = foldMax s₀ l := by
  induction l with
  | nil =>
    intro b₀ s₀
    rfl
  | cons c cs ih =>
    intro b₀ s₀
    rw [List.foldl_cons, foldMax_cons]
    by_cases h : s₀ < scoreNode c
    · have : updStep (b₀, s₀) c = (some c, scoreNode c) := by simp [updStep, h]
      rw [this, max_eq_right h.le]
      exact ih _ _
    · have : updStep (b₀, s₀) c = (b₀, s₀) := by simp [updStep, h]
      rw [this, max_eq_left (not_lt.mp h)]
      exact ih _ _

theorem updFold_all_le {l : List Node} {s₀ : ℚ} (h : ∀ c ∈ l, scoreNode c ≤ s₀)
    (b₀ : Option Node) : l.foldl updStep (b₀, s₀) = (b₀, s₀) := by
  induction l with
  | nil => rfl
  | cons c cs ih =>
    rw [List.foldl_cons]
    have hc : updStep (b₀, s₀) c = (b₀, s₀) := by
      simp [updStep, not_lt.mpr (h c (List.mem_cons_self c cs))]
    rw [hc]
    exact ih fun c' hc' => h c' (List.mem_cons_of_mem _ hc')

/-- The node retained by the update fold is the first element of the
list whose score reaches the fold's maximum. -/
theorem updFold_fst (l : List Node) :
    ∀ (b₀ : Option Node) (s₀ : ℚ), (∃ c ∈ l, s₀ < scoreNode c) →
      (l.foldl updStep (b₀, s₀)).1 =
        l.find? (fun c => decide (foldMax s₀ l ≤ scoreNode c)) := by
  induction l with
  | nil =>
    intro b₀ s₀ h
    rcases h with ⟨c, hc, _⟩
    cases hc
  | cons c cs ih =>
    intro b₀ s₀ hex
    rw [List.foldl_cons, foldMax_cons]
    by_cases hc : s₀ < scoreNode c
    · rw [max_eq_right hc.le]
      have hstep : updStep (b₀, s₀) c = (some c, scoreNode c) := by simp [updStep, hc]
      rw [hstep]
      by_cases ht : ∃ c' ∈ cs, scoreNode c < scoreNode c'
      · have hnotc : ¬ (foldMax (scoreNode c) cs ≤ scoreNode c) := by
          rcases ht with ⟨c', hc', hgt⟩
          have h1 : scoreNode c' ≤ foldMax (scoreNode c) cs := foldMax_of_mem hc' _
          linarith
        rw [List.find?_cons_of_neg _ (by simpa using hnotc)]
        exact ih (some c) (scoreNode c) ht
      · push_neg at ht
        rw [updFold_all_le ht (some c), foldMax_all_le ht]
        rw [List.find?_cons_of_pos _ (by simp)]
    · have hstep : updStep (b₀, s₀) c = (b₀, s₀) := by simp [updStep, hc]
      rw [hstep, max_eq_left (not_lt.mp hc)]
      have ht : ∃ c' ∈ cs, s₀ < scoreNode c' := by
        rcases hex with ⟨c', hc', hgt⟩
        rcases List.mem_cons.mp hc' with h1 | h2
        · subst h1
          exact absurd hgt hc
        · exact ⟨c', h2, hgt⟩
      have hnotc : ¬ (foldMax s₀ cs ≤ scoreNode c) := by
        rcases ht with ⟨c', hc', hgt⟩
        have h1 : scoreNode c' ≤ foldMax s₀ cs := foldMax_of_mem hc' _
        have h2 : scoreNode c ≤ s₀ := not_lt.mp hc
        linarith
      rw [List.find?_cons_of_neg _ (by simpa using hnotc)]
      exact ih b₀ s₀ ht

/-- Core analysis of the selector at a body with at least one candidate:
the walk's final score is the maximal candidate score, and its retained
node is the first candidate, in pre-order, attaining that maximum. -/
theorem selector_core (body : Node) (m : ℚ) (hm : maxCandScore body = some m) :
    (fbcWalk body (none, -1000)).2 = m ∧
      ∃ y, (candidates body).find? (fun c => decide (m ≤ scoreNode c)) = some y ∧
        (fbcWalk body (none, -1000)).1 = some y ∧ y ∈ candidates body ∧
        scoreNode y = m ∧ ∀ c ∈ candidates body, scoreNode c ≤ m := by
  obtain ⟨c, t, hcand⟩ : ∃ c t, candidates body = c :: t := by
    rcases h : candidates body with _ | ⟨c, t⟩
    · rw [maxCandScore, h] at hm
      exact absurd hm (by simp)
    · exact ⟨_, _, rfl⟩
  · have hm' : m = foldMax (scoreNode c) t := by
      simp only [maxCandScore, hcand] at hm
      exact (Option.some_injective _ hm).symm
    have hstart : foldMax (-1000 : ℚ) (candidates body) = m := by
      rw [hcand, foldMax_cons, max_eq_right (le_trans (by norm_num) (scoreNode_ge c)), hm']
    have hMle : ∀ x ∈ candidates body, scoreNode x ≤ m := by
      intro x hx
      rw [← hstart]
      exact foldMax_of_mem hx _
    have hsnd : (fbcWalk body (none, -1000)).2 = m := by
      rw [fbcWalk_candidates, updFold_snd, hstart]
    have hex : ∃ x ∈ candidates body, (-1000 : ℚ) < scoreNode x :=
      ⟨c, by rw [hcand]; exact List.mem_cons_self c t,
        lt_of_lt_of_le (by norm_num) (scoreNode_ge c)⟩
    have hfst : (fbcWalk body (none, -1000)).1 =
        (candidates body).find? (fun x => decide (m ≤ scoreNode x)) := by
      rw [fbcWalk_candidates, updFold_fst _ _ _ hex, hstart]
    have hach : ∃ x ∈ candidates body, m ≤ scoreNode x := by
      rcases foldMax_eq_or (candidates body) (-1000) with h | ⟨x, hx, he⟩
      · exfalso
        have h1 : scoreNode c ≤ foldMax (-1000 : ℚ) (candidates body) :=
          foldMax_of_mem (by rw [hcand]; exact List.mem_cons_self c t) _
        rw [h] at h1
        have h2 := scoreNode_ge c
        linarith
      · exact ⟨x, hx, by rw [← hstart, he]⟩
    obtain ⟨x, hx, hxm⟩ := hach
    have hissome : ((candidates body).find? (fun x => decide (m ≤ scoreNode x))).isSome := by
      rw [List.find?_isSome]
      exact ⟨x, hx, by simpa using hxm⟩
    obtain ⟨y, hy⟩ := Option.isSome_iff_exists.mp hissome
    have hymem : y ∈ candidates body := List.mem_of_find?_eq_some hy
    have hypred : m ≤ scoreNode y := by
      have := List.find?_some hy
      simpa using this
    exact ⟨hsnd, y, hy, by rw [hfst, hy], hymem, le_antisymm (hMle y hymem) hypred, hMle⟩

/-- Concrete evaluation: an attribute-less, childless `div` scores its
base score 5. -/
theorem scoreNode_exDiv : scoreNode (Node.mk NType.elementNode "div" [] []) = 5 := by
  have hb : baseFromTag "div" = 5 := by decide
  have hp : matchesAny positiveKeywords
      (getAttr (Node.mk NType.elementNode "div" [] []) "class" ++ " " ++
        getAttr (Node.mk NType.elementNode "div" [] []) "id") = false := by decide
  have hn : matchesAny negativeKeywords
      (getAttr (Node.mk NType.elementNode "div" [] []) "class" ++ " " ++
        getAttr (Node.mk NType.elementNode "div" [] []) "id") = false := by decide
  have ht : getTextContent (Node.mk NType.elementNode "div" [] []) = [] := by decide
  have hc : countElements (Node.mk NType.elementNode "div" [] []) "p" = 0 := by decide
  have hl : getLinkTextLength (Node.mk NType.elementNode "div" [] []) = 0 := by decide
  norm_num [scoreNode, Node.data, hb, hp, hn, ht, hc, hl, trimChars, byteLen, countChar]

/-- Concrete evaluation: the maximal candidate score of the example body
is 5. -/
theorem maxCandScore_exBody : maxCandScore exBody = some 5 := by
  have hc : candidates exBody =
      [Node.mk NType.elementNode "div" [] [], Node.mk NType.elementNode "div" [] []] := rfl
  simp [maxCandScore, hc, foldMax, scoreNode_exDiv]

/-- Concrete evaluation: the `class="nav"` div scores 5 − 25 = −20. -/
theorem scoreNode_negDiv : scoreNode negDiv = -20 := by
  show scoreNode (Node.mk NType.elementNode "div" [("class", "nav")] []) = -20
  have hb : baseFromTag "div" = 5 := by decide
  have hp : matchesAny positiveKeywords
      (getAttr (Node.mk NType.elementNode "div" [("class", "nav")] []) "class" ++ " " ++
        getAttr (Node.mk NType.elementNode "div" [("class", "nav")] []) "id") = false := by
    decide
  have hn : matchesAny negativeKeywords
      (getAttr (Node.mk NType.elementNode "div" [("class", "nav")] []) "class" ++ " " ++
        getAttr (Node.mk NType.elementNode "div" [("class", "nav")] []) "id") = true := by
    decide
  have ht : getTextContent (Node.mk NType.elementNode "div" [("class", "nav")] []) = [] := by
    decide
  have hc : countElements (Node.mk NType.elementNode "div" [("class", "nav")] []) "p" = 0 := by
    decide
  have hl : getLinkTextLength (Node.mk NType.elementNode "div" [("class", "nav")] []) = 0 := by
    decide
  norm_num [scoreNode, Node.data, hb, hp, hn, ht, hc, hl, trimChars, byteLen, countChar]

theorem self_mem_preorder (n : Node) : n ∈ preorder n := by
  cases n
  simp [preorder]

/-- After pruning below an unmarked root, no surviving node matches a
removal criterion. -/
theorem survivors_unmarked :
    ∀ n : Node, shouldRemove n = false →
      ∀ m ∈ preorder (pruneNode n), shouldRemove m = false := by
  refine nodeIndP
    (fun n => shouldRemove n = false → ∀ m ∈ preorder (pruneNode n), shouldRemove m = false)
    (fun cs => ∀ m ∈ preorderList (pruneList cs), shouldRemove m = false) ?_ ?_ ?_
  · intro ty d a cs hq hroot m hm
    simp only [pruneNode, preorder, List.mem_cons] at hm
    rcases hm with h | h
    · subst h
      exact hroot
    · exact hq m h
  · intro m hm
    simp [pruneList, preorderList] at hm
  · intro c cs hc hcs m hm
    by_cases hsc : shouldRemove c = true
    · simp only [pruneList, hsc, if_true] at hm
      exact hcs m hm
    · simp only [pruneList, hsc, if_false, preorderList, List.mem_append] at hm
      rcases hm with h | h
      · exact hc (by simpa using hsc) m h
      · exact hcs m h

/-- A tree none of whose nodes matches a removal criterion is unchanged
by pruning. -/
theorem prune_id_of_clean :
    ∀ n : Node, (∀ m ∈ preorder n, shouldRemove m = false) → pruneNode n = n := by
  refine nodeIndP
    (fun n => (∀ m ∈ preorder n, shouldRemove m = false) → pruneNode n = n)
    (fun cs => (∀ m ∈ preorderList cs, shouldRemove m = false) → pruneList cs = cs) ?_ ?_ ?_
  · intro ty d a cs hq hclean
    simp only [pruneNode, Node.mk.injEq, true_and]
    exact hq fun m hm => hclean m (by simp [preorder, List.mem_cons]; exact Or.inr hm)
  · intro _
    rfl
  · intro c cs hc hcs hclean
    have hscF : shouldRemove c = false :=
      hclean c (by simp only [preorderList, List.mem_append]; exact Or.inl (self_mem_preorder c))
    have h1 : pruneNode c = c :=
      hc fun m hm => hclean m (by simp only [preorderList, List.mem_append]; exact Or.inl hm)
    have h2 : pruneList cs = cs :=
      hcs fun m hm => hclean m (by simp only [preorderList, List.mem_append]; exact Or.inr hm)
    rw [pruneList, if_neg (by simp [hscF]), h1, h2]

/-- Every survivor of pruning corresponds to a node of the original tree
with the same type, tag and attributes. -/
theorem prune_projection :
    ∀ n : Node, ∀ m ∈ preorder (pruneNode n), ∃ p ∈ preorder n,
      m.type = p.type ∧ m.data = p.data ∧ m.attr = p.attr := by
  refine nodeIndP
    (fun n => ∀ m ∈ preorder (pruneNode n), ∃ p ∈ preorder n,
      m.type = p.type ∧ m.data = p.data ∧ m.attr = p.attr)
    (fun cs => ∀ m ∈ preorderList (pruneList cs), ∃ p ∈ preorderList cs,
      m.type = p.type ∧ m.data = p.data ∧ m.attr = p.attr) ?_ ?_ ?_
  · intro ty d a cs hq m hm
    simp only [pruneNode, preorder, List.mem_cons] at hm
    rcases hm with h | h
    · subst h
      exact ⟨Node.mk ty d a cs, self_mem_preorder _, rfl, rfl, rfl⟩
    · obtain ⟨p, hp, he⟩ := hq m h
      exact ⟨p, by simp only [preorder, List.mem_cons]; exact Or.inr hp, he⟩
  · intro m hm
    simp [pruneList, preorderList] at hm
  · intro c cs hc hcs m hm
    by_cases hsc : shouldRemove c = true
    · simp only [pruneList, hsc, if_true] at hm
      obtain ⟨p, hp, he⟩ := hcs m hm
      exact ⟨p, by simp only [preorderList, List.mem_append]; exact Or.inr hp, he⟩
    · simp only [pruneList, hsc, if_false, preorderList, List.mem_append] at hm
      rcases hm with h | h
      · obtain ⟨p, hp, he⟩ := hc m h
        exact ⟨p, by simp only [preorderList, List.mem_append]; exact Or.inl hp, he⟩
      · obtain ⟨p, hp, he⟩ := hcs m h
        exact ⟨p, by simp only [preorderList, List.mem_append]; exact Or.inr hp, he⟩

/-- The removal criterion depends only on a node's type, tag and
attributes. -/
theorem shouldRemove_congr {m p : Node} (ht : m.type = p.type) (hd : m.data = p.data)
    (ha : m.attr = p.attr) : shouldRemove m = shouldRemove p := by
  cases m
  cases p
  simp only [Node.type, Node.data, Node.attr] at ht hd ha
  subst ht
  subst hd
  subst ha
  rfl

/-- A successful `findElement` returns a node of the subtree that is an
element with the requested tag. -/
theorem findElement_some (n : Node) (tag : String) :
    ∀ m : Node, findElement n tag = some m →
      m ∈ preorder n ∧ m.type = NType.elementNode ∧ m.data = tag := by
  refine nodeIndP
    (fun n => ∀ m, findElement n tag = some m →
      m ∈ preorder n ∧ m.type = NType.elementNode ∧ m.data = tag)
    (fun cs => ∀ m, findElementList cs tag = some m →
      m ∈ preorderList cs ∧ m.type = NType.elementNode ∧ m.data = tag) ?_ ?_ ?_ n
  · intro ty d a cs hq m hm
    by_cases h : ty = NType.elementNode ∧ d = tag
    · rw [findElement, if_pos h] at hm
      injection hm with h'
      subst h'
      exact ⟨self_mem_preorder _, h.1, h.2⟩
    · rw [findElement, if_neg h] at hm
      obtain ⟨h1, h2⟩ := hq m hm
      exact ⟨by simp only [preorder, List.mem_cons]; exact Or.inr h1, h2⟩
  · intro m hm
    simp [findElementList] at hm
  · intro c cs hc hcs m hm
    rcases hfe : findElement c tag with _ | f
    · rw [findElementList, hfe] at hm
      obtain ⟨h1, h2⟩ := hcs m hm
      exact ⟨by simp only [preorderList, List.mem_append]; exact Or.inr h1, h2⟩
    · rw [findElementList, hfe] at hm
      obtain rfl : f = m := by simpa using hm
      obtain ⟨h1, h2⟩ := hc f hfe
      exact ⟨by simp only [preorderList, List.mem_append]; exact Or.inl h1, h2⟩

end Lemmas

section Claims

/-- C1: for every element node `n`, `scoreNode n` equals the sum of the
five components: base tag score, pattern score, density contribution,
paragraph bonus and capped punctuation bonus. -/
theorem scoreNode_eq_sum_components (n : Node) (_h : n.type = NType.elementNode) :
    scoreNode n = specBaseScore n + specPatternScore n + specDensityScore n +
      specParagraphBonus n + specPunctuationBonus n :=
  scoreNode_decomp n

/-- Witness for C1 at a concrete paragraph element. -/
theorem scoreNode_eq_sum_components_witness :
    (Node.mk NType.elementNode "p" [] [Node.mk NType.textNode "a, b" [] []]).type
        = NType.elementNode ∧
      scoreNode (Node.mk NType.elementNode "p" [] [Node.mk NType.textNode "a, b" [] []]) =
        specBaseScore (Node.mk NType.elementNode "p" [] [Node.mk NType.textNode "a, b" [] []]) +
        specPatternScore (Node.mk NType.elementNode "p" [] [Node.mk NType.textNode "a, b" [] []]) +
        specDensityScore (Node.mk NType.elementNode "p" [] [Node.mk NType.textNode "a, b" [] []]) +
        specParagraphBonus (Node.mk NType.elementNode "p" [] [Node.mk NType.textNode "a, b" [] []]) +
        specPunctuationBonus (Node.mk NType.elementNode "p" [] [Node.mk NType.textNode "a, b" [] []]) :=
  ⟨rfl, scoreNode_eq_sum_components _ rfl⟩

/-- C6 counterexample: `countElements` counts the node itself, so on a
childless `p` element it returns 1 where the claim (descendants only,
excluding the node itself) predicts 0. -/
theorem countElements_counts_self_cex :
    countElements (Node.mk NType.elementNode "p" [] []) "p" = 1 ∧
      specDescendantCount (Node.mk NType.elementNode "p" [] []) "p" = 0 :=
  ⟨rfl, rfl⟩

/-- C6 amended: `countElements n tag` counts the elements with the given
tag in the whole subtree rooted at `n`, `n` itself included: it equals
the number of matching nodes of the pre-order listing of the subtree,
that is, the descendant count plus 1 when `n` itself matches. -/
theorem countElements_eq_subtree_count (n : Node) (tag : String) :
    countElements n tag = ((preorder n).filter (elemTagPred tag)).length ∧
      countElements n tag =
        (if elemTagPred tag n then 1 else 0) + specDescendantCount n tag := by
  have main : ∀ m : Node, countElements m tag = ((preorder m).filter (elemTagPred tag)).length := by
    refine nodeIndP _ (fun cs => countElementsList cs tag =
      ((preorderList cs).filter (elemTagPred tag)).length) ?_ ?_ ?_
    · intro ty d a cs hq
      simp only [countElements, preorder, List.filter_cons, hq, elemTagPred, Node.type, Node.data]
      split_ifs with h1 h2 h2
      · simp only [List.length_cons]
        omega
      · exact absurd (decide_eq_true h1) h2
      · exact absurd (of_decide_eq_true h2) h1
      · omega
    · rfl
    · intro c cs hc hcs
      simp [countElementsList, preorderList, List.filter_append, hc, hcs]
  refine ⟨main n, ?_⟩
  rcases n with ⟨ty, d, a, cs⟩
  have := main (Node.mk ty d a cs)
  simp only [preorder, List.filter_cons] at this
  rw [this]
  simp only [specDescendantCount, Node.children]
  split_ifs <;> simp <;> omega

/-- C9: the selector, with its Go pointer return type made explicit,
never returns nil: both the fallback branch and the best-candidate
branch return a non-nil node, so the `candidate == nil` branch of
`ExtractContent` is unreachable. -/
theorem findBestCandidateOpt_never_nil (body : Node) :
    findBestCandidateOpt body = some (findBestCandidate body) := by
  simp only [findBestCandidateOpt, findBestCandidate]
  rcases h : (fbcWalk body (none, -1000)).1 with _ | best
  · rfl
  · by_cases hs : (fbcWalk body (none, -1000)).2 < 0 <;> simp [hs]

/-- C5: when the lower-cased raw input does not contain `"<body"`,
`ExtractContent` returns the original input unchanged. -/
theorem extractContent_no_body_returns_input (parse : String → Option Node)
    (render : Node → String) (raw : String)
    (h : containsSub (raw.data.map Char.toLower) ("<body".data) = false) :
    ExtractContent parse render raw = raw := by
  simp [ExtractContent, h]

/-- Witness for C5 at a concrete body-less input. -/
theorem extractContent_no_body_returns_input_witness :
    ExtractContent (fun _ => none) (fun _ => "") "<p>hi</p>" = "<p>hi</p>" :=
  extractContent_no_body_returns_input _ _ _ (by decide)

/-- C8: the preprocessing pass is idempotent: a second application
removes nothing further and returns the tree unchanged. -/
theorem removeUnwantedElements_idempotent (n : Node) :
    removeUnwantedElements (removeUnwantedElements n) = removeUnwantedElements n := by
  by_cases h : shouldRemove n = true
  · simp [removeUnwantedElements, h]
  · simp [removeUnwantedElements, h, shouldRemove_pruneNode, pruneNode_idem]

/-- C7: for every node, the summed trimmed anchor text length is at most
the node's trimmed total text length. -/
theorem getLinkTextLength_le_getTextLength (n : Node) :
    getLinkTextLength n ≤ getTextLength n :=
  linkLe_aux n

/-- C2: the selector returns a candidate-tagged element attaining the
maximal score over all candidate-tagged elements of the subtree, visited
in pre-order; when no candidate exists, or the best score is strictly
negative, it returns the body itself. -/
theorem findBestCandidate_spec (body : Node) :
    (candidates body = [] → findBestCandidate body = body) ∧
    ∀ m : ℚ, maxCandScore body = some m →
      (m < 0 → findBestCandidate body = body) ∧
      (0 ≤ m → findBestCandidate body ∈ candidates body ∧
        scoreNode (findBestCandidate body) = m ∧
        ∀ c ∈ candidates body, scoreNode c ≤ m) := by
  constructor
  · intro h0
    have h1 : fbcWalk body (none, -1000) = (none, -1000) := by
      rw [fbcWalk_candidates, h0]
      rfl
    simp [findBestCandidate, h1]
  · intro m hm
    obtain ⟨hsnd, y, _, hfst, hymem, hyscore, hall⟩ := selector_core body m hm
    constructor
    · intro hneg
      simp [findBestCandidate, hfst, hsnd, hneg]
    · intro hpos
      have hbest : findBestCandidate body = y := by
        simp [findBestCandidate, hfst, hsnd, not_lt.mpr hpos]
      rw [hbest]
      exact ⟨hymem, hyscore, hall⟩

/-- Witness for C2 at a concrete body with two tied `div` candidates. -/
theorem findBestCandidate_spec_witness :
    findBestCandidate exBody ∈ candidates exBody ∧
      scoreNode (findBestCandidate exBody) = 5 := by
  have h := ((findBestCandidate_spec exBody).2 5 maxCandScore_exBody).2 (by norm_num)
  exact ⟨h.1, h.2.1⟩

/-- C3 counterexample: a body holding two candidate `div`s with tied
maximal scores of −20.  The claim, which has no sign restriction,
requires the first tied `div` to be returned; but the best score found
is negative, the fallback fires, and the body itself — which is not one
of the tied candidates — is returned instead. -/
theorem findBestCandidate_tied_negative_cex :
    candidates exNegBody = [negDiv, negDiv] ∧
    scoreNode negDiv = -20 ∧
    findBestCandidate exNegBody = exNegBody ∧
    exNegBody ≠ negDiv := by
  have hc : candidates exNegBody = [negDiv, negDiv] := rfl
  have hm : maxCandScore exNegBody = some (-20) := by
    simp [maxCandScore, hc, foldMax, scoreNode_negDiv]
  obtain ⟨hsnd, y, hy, hfst, hymem, hyscore, hall⟩ := selector_core exNegBody (-20) hm
  refine ⟨hc, scoreNode_negDiv, ?_, ?_⟩
  · simp [findBestCandidate, hfst, hsnd, show (-20 : ℚ) < 0 by norm_num]
  · intro h
    injection h with h1 h2 h3 h4
    exact absurd h2 (by decide)

/-- C3 amended: restricted to a nonnegative maximal candidate score (a
negative maximum triggers the body fallback instead, per the
counterexample), the selector returns the first candidate in pre-order
whose score attains the maximum: ties keep the earliest candidate, and
any later (in particular descendant) candidate supplants it only with a
strictly higher score. -/
theorem findBestCandidate_first_max (body : Node) (m : ℚ)
    (hm : maxCandScore body = some m) (h0 : 0 ≤ m) :
    (candidates body).find? (fun c => decide (m ≤ scoreNode c)) =
      some (findBestCandidate body) := by
  obtain ⟨hsnd, y, hy, hfst, _, _, _⟩ := selector_core body m hm
  rw [hy]
  have hbest : findBestCandidate body = y := by
    simp [findBestCandidate, hfst, hsnd, not_lt.mpr h0]
  rw [hbest]

/-- Witness for C3 at a concrete body with two tied `div` candidates. -/
theorem findBestCandidate_first_max_witness :
    (candidates exBody).find? (fun c => decide ((5 : ℚ) ≤ scoreNode c)) =
      some (findBestCandidate exBody) :=
  findBestCandidate_first_max exBody 5 maxCandScore_exBody (by norm_num)

/-- C4 counterexample: when the tree's root itself matches a removal
criterion (here a `script` element, criterion (a)), `removeUnwantedElements`
detaches nothing at all — the root has no parent — and even the matching
`style` element below it survives, where the claim requires both to be
detached. -/
theorem removeUnwanted_root_not_detached_cex :
    removeUnwantedElements (Node.mk NType.elementNode "script" []
        [Node.mk NType.elementNode "style" [] []]) =
      Node.mk NType.elementNode "script" [] [Node.mk NType.elementNode "style" [] []] ∧
    shouldRemove (Node.mk NType.elementNode "script" []
        [Node.mk NType.elementNode "style" [] []]) = true :=
  ⟨by exact rfl, by decide⟩

/-- C4 amended: when the root does not itself match a removal criterion,
`removeUnwantedElements` detaches exactly the matching subtrees: no node
of the result matches any criterion; a tree with no matching node is
returned unchanged; and every surviving node has the type, tag and
attributes of a node of the original tree.  (When the root matches, it
has no parent and the tree is returned entirely unchanged.) -/
theorem removeUnwanted_amended (n : Node) (h : shouldRemove n = false) :
    (∀ m ∈ preorder (removeUnwantedElements n), shouldRemove m = false) ∧
    ((∀ m ∈ preorder n, shouldRemove m = false) → removeUnwantedElements n = n) ∧
    (∀ m ∈ preorder (removeUnwantedElements n), ∃ p ∈ preorder n,
      m.type = p.type ∧ m.data = p.data ∧ m.attr = p.attr) := by
  have hru : removeUnwantedElements n = pruneNode n := by
    simp [removeUnwantedElements, h]
  rw [hru]
  exact ⟨survivors_unmarked n h, prune_id_of_clean n, prune_projection n⟩

/-- Witness for C4 (amended) at a concrete clean document. -/
theorem removeUnwanted_amended_witness :
    removeUnwantedElements (Node.mk NType.documentNode "" []
        [Node.mk NType.elementNode "div" [] []]) =
      Node.mk NType.documentNode "" [] [Node.mk NType.elementNode "div" [] []] :=
  (removeUnwanted_amended
      (Node.mk NType.documentNode "" [] [Node.mk NType.elementNode "div" [] []])
      (by decide)).2.1 (by decide)

/-- C10: when parsing succeeds and every `body` element of the parsed
document matches a removal criterion (the document root itself not
matching any), preprocessing detaches every body, the body lookup fails,
and `ExtractContent` returns the raw input unchanged even though the
input contains a body tag. -/
theorem extractContent_body_removed (parse : String → Option Node) (render : Node → String)
    (raw : String) (doc : Node) (hp : parse raw = some doc)
    (hroot : shouldRemove doc = false)
    (hbody : ∀ m ∈ preorder doc, m.type = NType.elementNode → m.data = "body" →
      shouldRemove m = true) :
    ExtractContent parse render raw = raw := by
  by_cases hide : containsSub (raw.data.map Char.toLower) ("<body".data) = true
  · have hres : findElement (removeUnwantedElements doc) "body" = none := by
      rcases hfe : findElement (removeUnwantedElements doc) "body" with _ | b
      · rfl
      · exfalso
        obtain ⟨hmem, htype, hdata⟩ := findElement_some (removeUnwantedElements doc) "body" b hfe
        have hru : removeUnwantedElements doc = pruneNode doc := by
          simp [removeUnwantedElements, hroot]
        rw [hru] at hmem
        have hunmarked : shouldRemove b = false := survivors_unmarked doc hroot b hmem
        obtain ⟨p, hpmem, ht, hd, ha⟩ := prune_projection doc b hmem
        have hpmarked : shouldRemove p = true :=
          hbody p hpmem (ht.symm.trans htype) (hd.symm.trans hdata)
        rw [shouldRemove_congr ht hd ha, hpmarked] at hunmarked
        simp at hunmarked
    simp [ExtractContent, hide, hp, hres]
  · simp [ExtractContent, hide]

/-- Witness for C10 at a concrete document whose body carries `hidden`. -/
theorem extractContent_body_removed_witness :
    ExtractContent
      (fun _ => some (Node.mk NType.documentNode "" []
        [Node.mk NType.elementNode "html" []
          [Node.mk NType.elementNode "body" [("hidden", "")] []]]))
      (fun _ => "rendered") "<body hidden></body>" = "<body hidden></body>" :=
  extractContent_body_removed _ _ _ _ rfl (by decide) (by decide)

end Claims

end Html2md
